import Mathlib

/-!
Verification of the parallel-firewall core: the bounded byte ring buffer
(src/ring_buffer.c) and the ordered consumer pool (src/consumer.c).

The C code is shallowly embedded:
- the buffer's backing store (a malloc'd char array) is a total function
  from byte index to byte value; memcpy is modelled byte by byte;
- each C function body becomes a pure Lean function on the state record;
  a blocking wait becomes an enabling condition of the corresponding step
  of an explicit transition relation;
- size_t values are Nat; the guards proved below show the only subtraction
  performed (len -= size in ring_buffer_dequeue) never underflows in
  reachable states, so Nat subtraction agrees with the machine value.
-/

/-- Byte store of a malloc'd region: one byte per index. -/
def ByteMem := Nat → Nat

/-- Write a single byte at index p (one step of memcpy). -/
def writeByte (d : ByteMem) (p b : Nat) : ByteMem :=
  fun k => if k = p then b else d k

/-- Model of memcpy(dst + p, src, src.length): writes the bytes of src at
consecutive indices starting at p, without any wrap-around. -/
def writeList (d : ByteMem) (p : Nat) : List Nat → ByteMem
  | [] => d
  | b :: bs => writeList (writeByte d p b) (p + 1) bs

/-- Model of memcpy(dst, src + p, n): reads n consecutive bytes starting at
index p, without any wrap-around. -/
def readList (d : ByteMem) (p : Nat) : Nat → List Nat
  | 0 => []
  | n + 1 => d p :: readList d (p + 1) n

/-- State of struct so_ring_buffer_t (ring_buffer.h).  The pthread mutex and
condition variables carry no data and are represented by the transition
relation RBReach below. -/
structure so_ring_buffer_t where
  data : ByteMem
  read_pos : Nat
  write_pos : Nat
  len : Nat
  cap : Nat
  stop : Bool

/-- ring_buffer_init (ring_buffer.c lines 6-26).  The malloc result is a pair
of parameters: allocOk tells whether malloc returned non-NULL, and mem is the
(uninitialized) content of the returned region — malloc does not zero it.
Returns the C result (0 or -1) together with the initialized state, none when
allocation failed (the C code returns -1 before touching any other field). -/
def ring_buffer_init (cap : Nat) (mem : ByteMem) (allocOk : Bool) :
    Int × Option so_ring_buffer_t :=
  if allocOk then
    (0, some { data := mem, read_pos := 0, write_pos := 0, len := 0,
               cap := cap, stop := false })
  else
    (-1, none)

/-- Body of ring_buffer_enqueue (ring_buffer.c lines 28-48) after the wait
loop has exited, i.e. under the guard len + size <= cap: memcpy at write_pos,
advance write_pos modulo cap, grow len.  The C function returns size. -/
def ring_buffer_enqueue (ring : so_ring_buffer_t) (src : List Nat) :
    so_ring_buffer_t :=
  { ring with
    data := writeList ring.data ring.write_pos src,
    write_pos := (ring.write_pos + src.length) % ring.cap,
    len := ring.len + src.length }

/-- ring_buffer_dequeue (ring_buffer.c lines 50-66): memcpy out of read_pos,
advance read_pos modulo cap, shrink len.  The C function itself performs no
wait and no stop check; both live in consumer_thread (consumer.c 28-41). -/
def ring_buffer_dequeue (ring : so_ring_buffer_t) (size : Nat) :
    List Nat × so_ring_buffer_t :=
  (readList ring.data ring.read_pos size,
   { ring with
     read_pos := (ring.read_pos + size) % ring.cap,
     len := ring.len - size })

/-- ring_buffer_stop (ring_buffer.c lines 77-83): sets the stop flag; the two
broadcasts do not change the state. -/
def ring_buffer_stop (ring : so_ring_buffer_t) : so_ring_buffer_t :=
  { ring with stop := true }

/-- Exit condition of the consumer wait loop (consumer.c line 31): the loop
keeps waiting while len == 0 and the producer has not stopped. -/
def consumer_wait_done (ring : so_ring_buffer_t) : Bool :=
  !(ring.len == 0 && !ring.stop)

/-- Consumer-side dequeue gate (consumer.c lines 35-41): after the wait loop,
stop with len == 0 makes the thread break out of its loop (modelled as none,
the "empty/closed" result); otherwise it calls ring_buffer_dequeue. -/
def consumer_dequeue_gate (ring : so_ring_buffer_t) (size : Nat) :
    Option (List Nat × so_ring_buffer_t) :=
  if ring.stop && ring.len == 0 then none
  else some (ring_buffer_dequeue ring size)

/-- States of the ring buffer reachable by the operations the system performs
on it, for a fixed record size s and construction capacity cap:
initialization with any malloc contents, enqueue of an s-byte record once its
wait guard len + s <= cap holds, dequeue of s bytes once the consumer gate
len != 0 lets it through, and stop. -/
inductive RBReach (s cap : Nat) : so_ring_buffer_t → Prop
  | init (mem : ByteMem) :
      RBReach s cap { data := mem, read_pos := 0, write_pos := 0, len := 0,
                      cap := cap, stop := false }
  | enqueue (st : so_ring_buffer_t) (r : List Nat) :
      RBReach s cap st → r.length = s → st.len + s ≤ st.cap →
      RBReach s cap (ring_buffer_enqueue st r)
  | dequeue (st : so_ring_buffer_t) :
      RBReach s cap st → st.len ≠ 0 →
      RBReach s cap (ring_buffer_dequeue st s).2
  | stop (st : so_ring_buffer_t) :
      RBReach s cap st → RBReach s cap (ring_buffer_stop st)

/-- Sequential run of N enqueues (the producer side of the FIFO property). -/
def enqueueAll (ring : so_ring_buffer_t) (rs : List (List Nat)) :
    so_ring_buffer_t :=
  rs.foldl ring_buffer_enqueue ring

/-- Sequential run of n dequeues of size bytes each, collecting the outputs
in order. -/
def dequeueAll (ring : so_ring_buffer_t) (size : Nat) :
    Nat → List (List Nat) × so_ring_buffer_t
  | 0 => ([], ring)
  | n + 1 =>
    let step := ring_buffer_dequeue ring size
    let rest := dequeueAll step.2 size n
    (step.1 :: rest.1, rest.2)

/-- Bytes accessed by enqueue (at write_pos) and dequeue (at read_pos) stay
inside the cap-byte allocation: since both copies are contiguous and
unwrapped, the accessed indices are cursor..cursor+size-1, all below cap
exactly when cursor + size <= cap.  The hypotheses are the respective
enabling guards (enqueue wait satisfied, consumer gate open). -/
def accessSafe (s : Nat) (st : so_ring_buffer_t) : Prop :=
  (st.len + s ≤ st.cap → st.write_pos + s ≤ st.cap) ∧
  (st.len ≠ 0 → st.read_pos + s ≤ st.cap)

/-! ## The ordered consumer pool (consumer.c) -/

/-- Modelled from the spec: packet.h is not under src/, so the record is
abstracted per section 3 of the spec ("a fixed-size, fixed-layout value
(header with a timestamp field and sequencing hash plus payload)"):
hdr_timestamp is the field consumer.c reads as packet.hdr.timestamp, and
payload abstracts the remaining bytes (they distinguish distinct records but
play no role in the ordering logic). -/
structure so_packet_t where
  hdr_timestamp : Nat
  payload : Nat
deriving DecidableEq

/-- Shared state of the consumer pool: one so_consumer_ctx_t shared by all
workers (create_consumers passes the same ctx to every thread).
- input: records still in the ring buffer, oldest first (the byte-level FIFO
  behaviour of the ring is proved separately on so_ring_buffer_t);
- held: records dequeued but not yet written, one per busy worker (worker
  identity is irrelevant to the claims, only which records are in flight);
- times: the ctx->times array entries 0..*ctx->idx-1, i.e. the sequence
  ledger of timestamps in registration order;
- sink: records whose formatted line has been written, in write order;
- dequeued: ghost history of all records in dequeue order. -/
structure PoolState where
  input : List so_packet_t
  held : List so_packet_t
  times : List Nat
  sink : List so_packet_t
  dequeued : List so_packet_t
deriving DecidableEq

/-- Atomic steps of the pool, for a pool of nw worker threads.

dequeue_register is consumer.c lines 28-50: the whole block runs under
ctx->mutex, so the ring dequeue and the ticket registration
(ctx->times[(*ctx->idx)++] = timestamp, under the nested ctx->file_mutex)
form one atomic step with respect to every other dequeuer; a write by
another worker can interleave between the dequeue and the registration,
but it only removes the front of times while registration appends at the
back, so the two commute and merging them loses no reachable
(times, sink, dequeued) triple.

write_retire is consumer.c lines 62-80, all under ctx->file_mutex: the
wait loop exits when the worker's packet timestamp compares equal to the
VALUE ctx->times[0] (not to the worker's own ticket position); then the
array is shifted down by one (the head ticket is removed), the condition
is broadcast, and the line is written.  A waiting worker always has its
own ticket registered, so times is nonempty whenever a worker waits. -/
inductive PoolStep (nw : Nat) : PoolState → PoolState → Prop
  | dequeue_register (s : PoolState) (p : so_packet_t) (rest : List so_packet_t) :
      s.input = p :: rest → s.held.length < nw →
      PoolStep nw s
        { input := rest, held := s.held ++ [p],
          times := s.times ++ [p.hdr_timestamp],
          sink := s.sink, dequeued := s.dequeued ++ [p] }
  | write_retire (s : PoolState) (j : Nat) (hj : j < s.held.length) :
      s.times.head? = some (s.held.get ⟨j, hj⟩).hdr_timestamp →
      PoolStep nw s
        { input := s.input, held := s.held.eraseIdx j,
          times := s.times.tail,
          sink := s.sink ++ [s.held.get ⟨j, hj⟩], dequeued := s.dequeued }

/-- Pool states reachable with nw workers from an initial queue content of
all (in enqueue order), no worker holding anything, empty ledger, empty
sink. -/
inductive PoolReach (nw : Nat) (all : List so_packet_t) : PoolState → Prop
  | init : PoolReach nw all
      { input := all, held := [], times := [], sink := [], dequeued := [] }
  | step (s s' : PoolState) :
      PoolReach nw all s → PoolStep nw s s' → PoolReach nw all s'

/-- Events of one worker's write phase, consumer.c lines 62-80. -/
inductive WriteEvent where
  | lock_file_mutex
  | wait_for_head
  | remove_head
  | broadcast_cond
  | write_line
  | unlock_file_mutex
deriving DecidableEq

/-- Program order of the write phase of consumer_thread (consumer.c lines
62-80): lock ctx->file_mutex; wait while timestamp != ctx->times[0]; shift
ctx->times down and decrement *ctx->idx (remove the head ticket); broadcast
ctx->cond; write(fd, out_buf, len); unlock ctx->file_mutex. -/
def write_phase_events : List WriteEvent :=
  [WriteEvent.lock_file_mutex, WriteEvent.wait_for_head,
   WriteEvent.remove_head, WriteEvent.broadcast_cond,
   WriteEvent.write_line, WriteEvent.unlock_file_mutex]

/-! ## Pool construction (create_consumers, consumer.c lines 95-127) -/

/-- Fields of so_consumer_ctx_t that record whether the two ledger
allocations produced NULL (the code stores the malloc/calloc results without
checking them). -/
structure ConsumerCtx where
  times_is_null : Bool
  idx_is_null : Bool
deriving DecidableEq

/-- create_consumers (consumer.c lines 95-127).  Allocation and thread-start
outcomes are parameters: ctx_ok is whether malloc(sizeof ctx) succeeded,
times_ok / idx_ok whether the ledger array and index allocations succeeded,
threads_ok whether every pthread_create succeeded.  Returns the C return
value paired with the context the threads were handed (none when the
function returned before creating it).  Faithful to the source: the results
of malloc(num_consumers * sizeof(unsigned long)) and calloc(1, ...) are
stored into ctx->times / ctx->idx and never checked. -/
def create_consumers (num_consumers : Int)
    (ctx_ok times_ok idx_ok threads_ok : Bool) : Int × Option ConsumerCtx :=
  if ctx_ok = false then (-1, none)
  else
    let ctx : ConsumerCtx := { times_is_null := !times_ok, idx_is_null := !idx_ok }
    if threads_ok = false then (-1, some ctx)
    else (num_consumers, some ctx)

/-! ## Output line formatting (consumer.c lines 58-59) -/

/-- Character for one digit in a printf conversion: 0-9 then lowercase
a-f ('0' is code 48, 'a' is code 97 = 87 + 10). -/
def printfDigitChar (d : Nat) : Char :=
  if d < 10 then Char.ofNat (48 + d) else Char.ofNat (87 + d)

/-- Digits of n in base b, most significant first, as printf prints them. -/
def printfDigits (b n : Nat) : List Char :=
  ((Nat.digits b n).map printfDigitChar).reverse

/-- Model of the %lu conversion: decimal, no padding, "0" for zero. -/
def printf_lu (n : Nat) : String :=
  if n = 0 then "0" else String.mk (printfDigits 10 n)

/-- Digit characters %lx prints for n: lowercase hexadecimal, "0" for
zero. -/
def printf_lx_digits (n : Nat) : List Char :=
  if n = 0 then ['0'] else printfDigits 16 n

/-- Model of the %016lx conversion: the %lx digits, zero-padded on the left
to a minimum width of 16. -/
def printf_016lx (n : Nat) : String :=
  String.mk (List.replicate (16 - (printf_lx_digits n).length) '0'
    ++ printf_lx_digits n)

/-- Embedding of snprintf(out_buf, PKT_SZ, "%s %016lx %lu\n",
RES_TO_STR(action), hash, timestamp) from consumer.c lines 58-59.
Modelled from the spec: RES_TO_STR and PKT_SZ live in headers that are not
under src/; the outcome label is therefore an arbitrary string parameter and
PKT_SZ is taken, per the spec's fixed record size, to be large enough that
snprintf does not truncate the line. -/
def format_out_line (label : String) (hash timestamp : Nat) : String :=
  label ++ " " ++ printf_016lx hash ++ " " ++ printf_lu timestamp ++ "\n"

/-- The sixteen characters %lx can produce: the decimal digits followed by
the lowercase letters a-f. -/
def hexCharset : List Char :=
  String.data "0123456789abcdef"

/-- The ten characters %lu can produce: the decimal digits. -/
def decCharset : List Char :=
  String.data "0123456789"

/-! ## Helper lemmas: byte stores -/

theorem writeList_apply_of_lt (bs : List Nat) (d : ByteMem) (q k : Nat)
    (h : k < q) : writeList d q bs k = d k := by
  induction bs generalizing d q with
  | nil => rfl
  | cons b bs ih =>
    rw [writeList, ih _ _ (Nat.lt_succ_of_lt h), writeByte]
    simp [Nat.ne_of_lt h]

theorem writeList_apply_of_ge (bs : List Nat) (d : ByteMem) (q k : Nat)
    (h : q + bs.length ≤ k) : writeList d q bs k = d k := by
  induction bs generalizing d q with
  | nil => rfl
  | cons b bs ih =>
    rw [writeList, ih]
    · rw [writeByte]
      have : k ≠ q := by simp at h; omega
      simp [this]
    · simp at h ⊢; omega

theorem readList_length (d : ByteMem) (p n : Nat) :
    (readList d p n).length = n := by
  induction n generalizing p with
  | zero => rfl
  | succ n ih => rw [readList]; simp [ih]

theorem readList_add (d : ByteMem) (p m n : Nat) :
    readList d p (m + n) = readList d p m ++ readList d (p + m) n := by
  induction m generalizing p with
  | zero => simp [readList]
  | succ m ih =>
    have : m + 1 + n = (m + n) + 1 := by omega
    rw [this, readList, readList, ih]
    simp [List.cons_append, Nat.add_assoc, Nat.add_comm 1 m]

theorem readList_writeList (l : List Nat) (d : ByteMem) (p : Nat) :
    readList (writeList d p l) p l.length = l := by
  induction l generalizing d p with
  | nil => rfl
  | cons b bs ih =>
    rw [List.length_cons, readList, writeList]
    have h1 : writeList (writeByte d p b) (p + 1) bs p = b := by
      rw [writeList_apply_of_lt _ _ _ _ (Nat.lt_succ_self p), writeByte]
      simp
    rw [h1, ih]

theorem writeList_append (a b : List Nat) (d : ByteMem) (p : Nat) :
    writeList d p (a ++ b) = writeList (writeList d p a) (p + a.length) b := by
  induction a generalizing d p with
  | nil => simp [writeList]
  | cons x xs ih =>
    rw [List.cons_append, writeList, writeList, ih]
    simp [Nat.add_assoc, Nat.add_comm 1 xs.length]

/-! ## Helper lemmas: integer remainders -/

theorem int_emod_sub_left (a b n : Int) : (a % n - b) % n = (a - b) % n := by
  rw [Int.sub_emod, Int.emod_emod_of_dvd _ dvd_rfl, ← Int.sub_emod]

theorem int_emod_sub_right (a b n : Int) : (a - b % n) % n = (a - b) % n := by
  rw [Int.sub_emod, Int.emod_emod_of_dvd _ dvd_rfl, ← Int.sub_emod]

theorem int_emod_add_left (a b n : Int) : (a % n + b) % n = (a + b) % n := by
  rw [Int.add_emod, Int.emod_emod_of_dvd _ dvd_rfl, ← Int.add_emod]

theorem nat_dvd_add_le (s x c : Nat) (hx : s ∣ x) (hc : s ∣ c) (h : x < c) :
    x + s ≤ c := by
  obtain ⟨a, rfl⟩ := hx
  obtain ⟨b, rfl⟩ := hc
  have hab : a < b := lt_of_mul_lt_mul_left h (Nat.zero_le s)
  calc s * a + s = s * (a + 1) := by ring
    _ ≤ s * b := Nat.mul_le_mul_left s hab

/-! ## Helper lemmas: ring buffer state invariant -/

theorem rb_basic (s cap : Nat) (st : so_ring_buffer_t)
    (h : RBReach s cap st) :
    st.cap = cap ∧ s ∣ st.len ∧ st.len ≤ st.cap ∧
    ((st.write_pos : Int) - (st.read_pos : Int)) % (st.cap : Int)
      = (st.len : Int) % (st.cap : Int) ∧
    (0 < cap → st.write_pos < cap ∧ st.read_pos < cap) := by
  induction h with
  | init mem => simp
  | enqueue st r hre hr hguard ih =>
    obtain ⟨hcap, hdvd, hlen, hcong, hpos⟩ := ih
    refine ⟨hcap, ?_, ?_, ?_, ?_⟩
    · simp only [ring_buffer_enqueue, hr]
      exact dvd_add hdvd dvd_rfl
    · simp only [ring_buffer_enqueue, hr]
      exact hr ▸ hguard
    · simp only [ring_buffer_enqueue, hr]
      push_cast
      rw [int_emod_sub_left]
      have heq : ((st.write_pos : Int) + (s : Int)) - (st.read_pos : Int)
          = ((st.write_pos : Int) - (st.read_pos : Int)) + (s : Int) := by ring
      rw [heq, ← int_emod_add_left, hcong, int_emod_add_left]
    · intro hc
      refine ⟨?_, (hpos hc).2⟩
      simp only [ring_buffer_enqueue]
      rw [hcap]
      exact Nat.mod_lt _ hc
  | dequeue st hre hne ih =>
    obtain ⟨hcap, hdvd, hlen, hcong, hpos⟩ := ih
    have hs : s ≤ st.len := Nat.le_of_dvd (Nat.pos_of_ne_zero hne) hdvd
    refine ⟨hcap, ?_, ?_, ?_, ?_⟩
    · simp only [ring_buffer_dequeue]
      exact Nat.dvd_sub' hdvd dvd_rfl
    · simp only [ring_buffer_dequeue]
      exact le_trans (Nat.sub_le _ _) hlen
    · simp only [ring_buffer_dequeue]
      rw [Nat.cast_sub hs]
      push_cast
      rw [int_emod_sub_right]
      have heq : (st.write_pos : Int) - ((st.read_pos : Int) + (s : Int))
          = ((st.write_pos : Int) - (st.read_pos : Int)) - (s : Int) := by ring
      rw [heq, ← int_emod_sub_left, hcong, int_emod_sub_left]
    · intro hc
      refine ⟨(hpos hc).1, ?_⟩
      simp only [ring_buffer_dequeue]
      rw [hcap]
      exact Nat.mod_lt _ hc
  | stop st hre ih => simpa [ring_buffer_stop] using ih

theorem rb_reach_filled (s cap : Nat) (k : Nat) (hk : k * s ≤ cap) :
    ∃ st, RBReach s cap st ∧ st.len = k * s ∧ st.write_pos = k * s % cap ∧
      st.read_pos = 0 ∧ st.cap = cap := by
  induction k with
  | zero =>
    exact ⟨_, RBReach.init (fun _ => 0), by simp, by simp, rfl, rfl⟩
  | succ k ih =>
    have hk' : k * s ≤ cap := le_trans (Nat.mul_le_mul_right s (Nat.le_succ k)) hk
    obtain ⟨st, hre, hlen, hw, hr0, hc⟩ := ih hk'
    have hguard : st.len + s ≤ st.cap := by
      rw [hlen, hc]
      calc k * s + s = (k + 1) * s := by ring
        _ ≤ cap := hk
    refine ⟨ring_buffer_enqueue st (List.replicate s 0),
      RBReach.enqueue st _ hre (by simp) hguard, ?_, ?_, ?_, ?_⟩
    · simp only [ring_buffer_enqueue, List.length_replicate]
      rw [hlen]; ring
    · simp only [ring_buffer_enqueue, List.length_replicate]
      rw [hw, hc, Nat.mod_add_mod]
      congr 1
      ring
    · simpa only [ring_buffer_enqueue] using hr0
    · simpa only [ring_buffer_enqueue] using hc

theorem rb_aligned (s cap : Nat) (st : so_ring_buffer_t)
    (hsc : s ∣ cap) (h : RBReach s cap st) :
    s ∣ st.write_pos ∧ s ∣ st.read_pos := by
  induction h with
  | init mem => simp
  | enqueue st r hre hr hguard ih =>
    have hcap : st.cap = cap := (rb_basic s cap st hre).1
    refine ⟨?_, ih.2⟩
    simp only [ring_buffer_enqueue, hr, hcap]
    rw [Nat.dvd_mod_iff hsc]
    exact dvd_add ih.1 dvd_rfl
  | dequeue st hre hne ih =>
    have hcap : st.cap = cap := (rb_basic s cap st hre).1
    refine ⟨ih.1, ?_⟩
    simp only [ring_buffer_dequeue, hcap]
    rw [Nat.dvd_mod_iff hsc]
    exact dvd_add ih.2 dvd_rfl
  | stop st hre ih => simpa [ring_buffer_stop] using ih

/-! ## Helper lemmas: sequential FIFO runs -/

theorem join_length_of_all (s : Nat) (rs : List (List Nat))
    (hall : ∀ r ∈ rs, r.length = s) : rs.flatten.length = rs.length * s := by
  induction rs with
  | nil => simp
  | cons r rs ih =>
    have hr : r.length = s := hall r (List.mem_cons_self r rs)
    have ih' := ih (fun x hx => hall x (List.mem_cons_of_mem r hx))
    simp only [List.flatten_cons, List.length_append, List.length_cons, hr, ih']
    ring

theorem enqueueAll_spec (s : Nat) (h0 : 0 < s) (rs : List (List Nat))
    (st : so_ring_buffer_t) (hall : ∀ r ∈ rs, r.length = s)
    (hcap : st.write_pos + rs.length * s ≤ st.cap) :
    (enqueueAll st rs).data = writeList st.data st.write_pos rs.flatten ∧
    (enqueueAll st rs).read_pos = st.read_pos ∧
    (enqueueAll st rs).len = st.len + rs.length * s ∧
    (enqueueAll st rs).cap = st.cap ∧
    (enqueueAll st rs).stop = st.stop := by
  induction rs generalizing st with
  | nil =>
    simp [enqueueAll, writeList]
  | cons r rs ih =>
    have hr : r.length = s := hall r (List.mem_cons_self r rs)
    cases rs with
    | nil =>
      refine ⟨?_, rfl, ?_, rfl, rfl⟩
      · show (ring_buffer_enqueue st r).data
          = writeList st.data st.write_pos ([r].flatten)
        simp [ring_buffer_enqueue]
      · show (ring_buffer_enqueue st r).len = st.len + [r].length * s
        simp [ring_buffer_enqueue, hr]
    | cons r2 rs' =>
      have hL : (r :: r2 :: rs').length * s = rs'.length * s + s + s := by
        simp only [List.length_cons]
        ring
      have hL2 : (r2 :: rs').length * s = rs'.length * s + s := by
        simp only [List.length_cons]
        ring
      rw [hL] at hcap
      have hwp : st.write_pos + s < st.cap := by omega
      have hwp1 : (ring_buffer_enqueue st r).write_pos = st.write_pos + s := by
        simp only [ring_buffer_enqueue, hr]
        exact Nat.mod_eq_of_lt hwp
      have hcap2 : (ring_buffer_enqueue st r).write_pos + (r2 :: rs').length * s
          ≤ (ring_buffer_enqueue st r).cap := by
        rw [hwp1, hL2]
        show st.write_pos + s + (rs'.length * s + s) ≤ st.cap
        omega
      obtain ⟨hd, hrp, hl, hc, hst⟩ := ih (ring_buffer_enqueue st r)
        (fun x hx => hall x (List.mem_cons_of_mem r hx)) hcap2
      have hfold : enqueueAll st (r :: r2 :: rs')
          = enqueueAll (ring_buffer_enqueue st r) (r2 :: rs') := rfl
      have hrhs : writeList st.data st.write_pos ((r :: r2 :: rs').flatten)
          = writeList (writeList st.data st.write_pos r) (st.write_pos + s)
              ((r2 :: rs').flatten) := by
        rw [List.flatten_cons, writeList_append, hr]
      refine ⟨?_, ?_, ?_, ?_, ?_⟩
      · rw [hfold, hd, hwp1, hrhs]
        rfl
      · rw [hfold, hrp]
        rfl
      · rw [hfold, hl, hL, hL2]
        show st.len + r.length + (rs'.length * s + s) = st.len + (rs'.length * s + s + s)
        rw [hr]
        omega
      · rw [hfold, hc]
        rfl
      · rw [hfold, hst]
        rfl

theorem dequeueAll_spec (s : Nat) (h0 : 0 < s) (rs : List (List Nat))
    (st : so_ring_buffer_t) (hall : ∀ r ∈ rs, r.length = s)
    (hcap : st.read_pos + rs.length * s ≤ st.cap)
    (hread : readList st.data st.read_pos (rs.length * s) = rs.flatten) :
    (dequeueAll st s rs.length).1 = rs := by
  induction rs generalizing st with
  | nil => rfl
  | cons r rs ih =>
    have hr : r.length = s := hall r (List.mem_cons_self r rs)
    have hsplit : (r :: rs).length * s = s + rs.length * s := by
      simp only [List.length_cons]
      ring
    rw [hsplit, readList_add, List.flatten_cons] at hread
    have hlen_eq : (readList st.data st.read_pos s).length = r.length := by
      rw [readList_length, hr]
    obtain ⟨hhead, htail⟩ := List.append_inj hread hlen_eq
    cases rs with
    | nil =>
      show (readList st.data st.read_pos s) :: (dequeueAll _ s 0).1 = [r]
      rw [hhead]
      rfl
    | cons r2 rs' =>
      have hL2 : (r2 :: rs').length * s = rs'.length * s + s := by
        simp only [List.length_cons]
        ring
      rw [hsplit, hL2] at hcap
      have hrps : st.read_pos + s < st.cap := by omega
      have hrp1 : ((ring_buffer_dequeue st s).2).read_pos = st.read_pos + s := by
        simp only [ring_buffer_dequeue]
        exact Nat.mod_eq_of_lt hrps
      have hcap2 : ((ring_buffer_dequeue st s).2).read_pos + (r2 :: rs').length * s
          ≤ ((ring_buffer_dequeue st s).2).cap := by
        rw [hrp1, hL2]
        show st.read_pos + s + (rs'.length * s + s) ≤ st.cap
        omega
      have ih' := ih ((ring_buffer_dequeue st s).2)
        (fun x hx => hall x (List.mem_cons_of_mem r hx)) hcap2
        (by rw [hrp1]; exact htail)
      show (readList st.data st.read_pos s)
          :: (dequeueAll ((ring_buffer_dequeue st s).2) s (r2 :: rs').length).1
          = r :: r2 :: rs'
      rw [hhead, ih']


/-! ## Helper lemmas: the pool ledger invariant -/

theorem perm_get_cons_eraseIdx {α : Type _} (l : List α) (j : Nat)
    (hj : j < l.length) :
    l.Perm (l.get ⟨j, hj⟩ :: l.eraseIdx j) := by
  induction l generalizing j with
  | nil => simp at hj
  | cons a t ih =>
    cases j with
    | zero => simp [List.eraseIdx]
    | succ j =>
      have hj2 : j < t.length := by simpa using hj
      show (a :: t).Perm (t.get ⟨j, hj2⟩ :: a :: t.eraseIdx j)
      exact ((ih j hj2).cons a).trans (List.Perm.swap _ _ _)

/-- Inductive invariant of the consumer pool: some write count w splits the
dequeue history into the written prefix (the sink, in order) and the
in-flight suffix, whose timestamps are exactly the ledger in order and whose
records are exactly the held ones up to permutation. -/
def PoolInv (all : List so_packet_t) (s : PoolState) : Prop :=
  ∃ w, s.dequeued ++ s.input = all ∧ w ≤ s.dequeued.length ∧
    s.sink = s.dequeued.take w ∧
    s.times = (s.dequeued.drop w).map so_packet_t.hdr_timestamp ∧
    s.held.Perm (s.dequeued.drop w)

theorem pool_inv (nw : Nat) (all : List so_packet_t) (u : PoolState)
    (hnd : (all.map so_packet_t.hdr_timestamp).Nodup)
    (h : PoolReach nw all u) : PoolInv all u := by
  induction h with
  | init => exact ⟨0, by simp, by simp, rfl, rfl, List.Perm.refl _⟩
  | step t t' hre hstep ih =>
    obtain ⟨w, hall, hw, hsink, htimes, hperm⟩ := ih
    cases hstep with
    | dequeue_register p rest hin hnw =>
      refine ⟨w, ?_, ?_, ?_, ?_, ?_⟩
      · show (t.dequeued ++ [p]) ++ rest = all
        rw [List.append_assoc, List.singleton_append, ← hin]
        exact hall
      · show w ≤ (t.dequeued ++ [p]).length
        simp only [List.length_append, List.length_cons, List.length_nil]
        omega
      · show t.sink = (t.dequeued ++ [p]).take w
        rw [List.take_append_of_le_length hw]
        exact hsink
      · show t.times ++ [p.hdr_timestamp]
          = ((t.dequeued ++ [p]).drop w).map so_packet_t.hdr_timestamp
        rw [List.drop_append_of_le_length hw, List.map_append, htimes]
        rfl
      · show (t.held ++ [p]).Perm ((t.dequeued ++ [p]).drop w)
        rw [List.drop_append_of_le_length hw]
        exact hperm.append_right [p]
    | write_retire j hj hhead =>
      have hne : t.times ≠ [] := by
        intro hnil
        rw [hnil] at hhead
        exact Option.noConfusion hhead
      have hwlt : w < t.dequeued.length := by
        by_contra hge
        have hdnil : t.dequeued.drop w = [] := List.drop_eq_nil_of_le (by omega)
        rw [hdnil] at htimes
        simp at htimes
        exact hne htimes
      have hdrop : t.dequeued.drop w
          = t.dequeued.get ⟨w, hwlt⟩ :: t.dequeued.drop (w + 1) :=
        List.drop_eq_get_cons hwlt
      have hts_d : t.times.head?
          = some (t.dequeued.get ⟨w, hwlt⟩).hdr_timestamp := by
        rw [htimes, hdrop]
        rfl
      have hts_eq : (t.held.get ⟨j, hj⟩).hdr_timestamp
          = (t.dequeued.get ⟨w, hwlt⟩).hdr_timestamp := by
        rw [hhead] at hts_d
        exact Option.some.inj hts_d
      have hnodup_deq : (t.dequeued.map so_packet_t.hdr_timestamp).Nodup := by
        have happ : (t.dequeued.map so_packet_t.hdr_timestamp
            ++ t.input.map so_packet_t.hdr_timestamp).Nodup := by
          rw [← List.map_append, hall]
          exact hnd
        exact (List.nodup_append.mp happ).1
      have hnodup_drop :
          ((t.dequeued.drop w).map so_packet_t.hdr_timestamp).Nodup :=
        hnodup_deq.sublist ((t.dequeued.drop_sublist w).map so_packet_t.hdr_timestamp)
      have hmem : t.held.get ⟨j, hj⟩ ∈ t.dequeued.drop w :=
        hperm.subset (t.held.get_mem j hj)
      have hr_eq : t.held.get ⟨j, hj⟩ = t.dequeued.get ⟨w, hwlt⟩ := by
        rw [hdrop] at hmem
        rcases List.mem_cons.mp hmem with heq | hmem2
        · exact heq
        · exfalso
          rw [hdrop] at hnodup_drop
          simp only [List.map_cons, List.nodup_cons] at hnodup_drop
          exact hnodup_drop.1
            (hts_eq ▸ List.mem_map_of_mem so_packet_t.hdr_timestamp hmem2)
      refine ⟨w + 1, ?_, ?_, ?_, ?_, ?_⟩
      · exact hall
      · show w + 1 ≤ t.dequeued.length
        omega
      · show t.sink ++ [t.held.get ⟨j, hj⟩] = t.dequeued.take (w + 1)
        rw [hsink, hr_eq, List.take_succ, List.getElem?_eq_getElem hwlt]
        rfl
      · show t.times.tail = (t.dequeued.drop (w + 1)).map so_packet_t.hdr_timestamp
        rw [htimes, hdrop]
        rfl
      · show (t.held.eraseIdx j).Perm (t.dequeued.drop (w + 1))
        have h1 : (t.held.get ⟨j, hj⟩ :: t.held.eraseIdx j).Perm
            (t.dequeued.get ⟨w, hwlt⟩ :: t.dequeued.drop (w + 1)) := by
          rw [← hdrop]
          exact (perm_get_cons_eraseIdx t.held j hj).symm.trans hperm
        rw [← hr_eq] at h1
        exact h1.cons_inv

/-! ## Helper lemmas: printf conversions -/

theorem printfDigitChar_mem_hex : ∀ d, d < 16 → printfDigitChar d ∈ hexCharset := by
  decide

theorem printfDigitChar_mem_dec : ∀ d, d < 10 → printfDigitChar d ∈ decCharset := by
  decide

theorem printf_lx_digits_length_le (n : Nat) (h : n < 2 ^ 64) :
    (printf_lx_digits n).length ≤ 16 := by
  unfold printf_lx_digits
  rcases eq_or_ne n 0 with rfl | hn
  · simp
  · rw [if_neg hn]
    unfold printfDigits
    rw [List.length_reverse, List.length_map]
    rw [Nat.digits_len 16 n (by norm_num) hn]
    have h16 : n < 16 ^ 16 := by
      calc n < 2 ^ 64 := h
        _ = 16 ^ 16 := by norm_num
    have hlog := (Nat.lt_pow_iff_log_lt (by norm_num : 1 < 16) hn).mp h16
    omega

theorem printf_lx_digits_pos (n : Nat) : 1 ≤ (printf_lx_digits n).length := by
  unfold printf_lx_digits
  rcases eq_or_ne n 0 with rfl | hn
  · simp
  · rw [if_neg hn]
    unfold printfDigits
    rw [List.length_reverse, List.length_map]
    have hne : Nat.digits 16 n ≠ [] := Nat.digits_ne_nil_iff_ne_zero.mpr hn
    cases hd : Nat.digits 16 n with
    | nil => exact absurd hd hne
    | cons x xs => simp

theorem printf_016lx_length (n : Nat) (h : n < 2 ^ 64) :
    (printf_016lx n).length = 16 := by
  have hle := printf_lx_digits_length_le n h
  unfold printf_016lx
  show (List.replicate (16 - (printf_lx_digits n).length) '0'
    ++ printf_lx_digits n).length = 16
  rw [List.length_append, List.length_replicate]
  omega

theorem printf_016lx_chars (n : Nat) :
    ∀ c ∈ (printf_016lx n).data, c ∈ hexCharset := by
  intro c hc
  have hc2 : c ∈ List.replicate (16 - (printf_lx_digits n).length) '0'
      ++ printf_lx_digits n := hc
  rcases List.mem_append.mp hc2 with h1 | h2
  · rw [List.eq_of_mem_replicate h1]
    decide
  · unfold printf_lx_digits at h2
    rcases eq_or_ne n 0 with rfl | hn
    · rw [if_pos rfl] at h2
      rcases List.mem_singleton.mp h2 with rfl
      decide
    · rw [if_neg hn] at h2
      unfold printfDigits at h2
      rw [List.mem_reverse] at h2
      obtain ⟨d, hd, rfl⟩ := List.mem_map.mp h2
      exact printfDigitChar_mem_hex d (Nat.digits_lt_base (by norm_num) hd)

theorem printf_lu_chars (n : Nat) :
    ∀ c ∈ (printf_lu n).data, c ∈ decCharset := by
  intro c hc
  unfold printf_lu at hc
  rcases eq_or_ne n 0 with rfl | hn
  · rw [if_pos rfl] at hc
    rcases List.mem_singleton.mp hc with rfl
    decide
  · rw [if_neg hn] at hc
    have hc2 : c ∈ printfDigits 10 n := hc
    unfold printfDigits at hc2
    rw [List.mem_reverse] at hc2
    obtain ⟨d, hd, rfl⟩ := List.mem_map.mp hc2
    exact printfDigitChar_mem_dec d (Nat.digits_lt_base (by norm_num) hd)

/-! ## Claim theorems -/

/-- C2: the consumer-side dequeue of the bounded queue proceeds exactly when
len >= size(record) or (shutdown and len == 0) — in reachable states len is a
multiple of the record size, under which the code's wait condition
(len != 0 or stop, consumer.c line 31) is equivalent to the claimed one; in
the shutdown-and-empty case it returns the distinguishable "empty/closed"
result (none, the thread leaves its loop), and otherwise it copies out the
oldest size bytes at read_pos, advances the read cursor and shrinks len. -/
theorem C2_dequeue_contract (st : so_ring_buffer_t) (s : Nat)
    (h0 : 0 < s) (hdvd : s ∣ st.len) :
    (consumer_wait_done st = true
      ↔ (s ≤ st.len ∨ (st.stop = true ∧ st.len = 0)))
    ∧ (consumer_dequeue_gate st s = none ↔ (st.stop = true ∧ st.len = 0))
    ∧ (∀ out st2, consumer_dequeue_gate st s = some (out, st2) →
        out = readList st.data st.read_pos s
        ∧ st2.read_pos = (st.read_pos + s) % st.cap
        ∧ st2.len = st.len - s) := by
  have hcase : st.len = 0 ∨ s ≤ st.len := by
    rcases Nat.eq_zero_or_pos st.len with h | h
    · exact Or.inl h
    · exact Or.inr (Nat.le_of_dvd h hdvd)
  refine ⟨?_, ?_, ?_⟩
  · cases hstop : st.stop <;> simp [consumer_wait_done, hstop] <;> omega
  · cases hstop : st.stop <;> by_cases hlen : st.len = 0 <;>
      simp [consumer_dequeue_gate, hstop, hlen]
  · intro out st2 heq
    unfold consumer_dequeue_gate at heq
    split at heq
    · exact absurd heq (by simp)
    · simp only [Option.some.injEq, ring_buffer_dequeue, Prod.mk.injEq] at heq
      obtain ⟨ho, hst⟩ := heq
      subst ho
      subst hst
      exact ⟨rfl, rfl, rfl⟩

/-- Witness for C2 at a concrete state (len 2, cap 4, record size 2, not
stopped): the gate does not report empty/closed. -/
theorem C2_dequeue_contract_witness :
    (consumer_dequeue_gate (so_ring_buffer_t.mk (fun _ => 0) 0 0 2 4 false) 2 = none
      ↔ ((so_ring_buffer_t.mk (fun _ => 0) 0 0 2 4 false).stop = true
         ∧ (so_ring_buffer_t.mk (fun _ => 0) 0 0 2 4 false).len = 0)) :=
  (C2_dequeue_contract (so_ring_buffer_t.mk (fun _ => 0) 0 0 2 4 false) 2
    (by decide) (by decide)).2.1

/-- C3 counterexample: after one enqueue of a full record into a queue of
capacity one record (s = 1 byte, cap = 1), len = cap = 1 while
(write_pos - read_pos) mod cap = 0, so the claimed cursor identity
(write_pos - read_pos) mod cap == len fails on a reachable state. -/
theorem C3_full_state_breaks_mod_identity :
    RBReach 1 1 (ring_buffer_enqueue
      (so_ring_buffer_t.mk (fun _ => 0) 0 0 0 1 false) [0])
    ∧ ¬((((ring_buffer_enqueue (so_ring_buffer_t.mk (fun _ => 0) 0 0 0 1 false)
            [0]).write_pos : Int)
        - ((ring_buffer_enqueue (so_ring_buffer_t.mk (fun _ => 0) 0 0 0 1 false)
            [0]).read_pos : Int))
        % ((ring_buffer_enqueue (so_ring_buffer_t.mk (fun _ => 0) 0 0 0 1 false)
            [0]).cap : Int)
      = ((ring_buffer_enqueue (so_ring_buffer_t.mk (fun _ => 0) 0 0 0 1 false)
            [0]).len : Int)) := by
  constructor
  · exact RBReach.enqueue _ [0] (RBReach.init (fun _ => 0)) rfl (by decide)
  · decide

/-- C3 (amended): every reachable queue state satisfies 0 <= len <= cap, len
a multiple of the record size (so the dequeue subtraction never underflows),
and the congruence (write_pos - read_pos) == len (mod cap) — equality with
len itself fails when the buffer is exactly full, see the counterexample. -/
theorem C3_state_invariant (s cap : Nat) (st : so_ring_buffer_t)
    (h : RBReach s cap st) :
    st.len ≤ st.cap ∧ s ∣ st.len ∧
    ((st.write_pos : Int) - (st.read_pos : Int)) % (st.cap : Int)
      = (st.len : Int) % (st.cap : Int) := by
  obtain ⟨hc, hd, hl, hcong, hp⟩ := rb_basic s cap st h
  exact ⟨hl, hd, hcong⟩

/-- Witness for C3 at the reachable full state of the counterexample. -/
theorem C3_state_invariant_witness :
    (ring_buffer_enqueue (so_ring_buffer_t.mk (fun _ => 0) 0 0 0 1 false)
        [0]).len
      ≤ (ring_buffer_enqueue (so_ring_buffer_t.mk (fun _ => 0) 0 0 0 1 false)
        [0]).cap
    ∧ 1 ∣ (ring_buffer_enqueue (so_ring_buffer_t.mk (fun _ => 0) 0 0 0 1 false)
        [0]).len
    ∧ (((ring_buffer_enqueue (so_ring_buffer_t.mk (fun _ => 0) 0 0 0 1 false)
          [0]).write_pos : Int)
        - ((ring_buffer_enqueue (so_ring_buffer_t.mk (fun _ => 0) 0 0 0 1 false)
          [0]).read_pos : Int))
        % ((ring_buffer_enqueue (so_ring_buffer_t.mk (fun _ => 0) 0 0 0 1 false)
          [0]).cap : Int)
      = ((ring_buffer_enqueue (so_ring_buffer_t.mk (fun _ => 0) 0 0 0 1 false)
          [0]).len : Int)
        % ((ring_buffer_enqueue (so_ring_buffer_t.mk (fun _ => 0) 0 0 0 1 false)
          [0]).cap : Int) :=
  C3_state_invariant 1 1 _
    (RBReach.enqueue _ [0] (RBReach.init (fun _ => 0)) rfl (by decide))

/-- C4: strict FIFO — enqueueing equal-size records r1..rN in order into a
freshly initialized queue of sufficient capacity (N * size <= cap) and then
performing N successive dequeues returns exactly r1..rN in order. -/
theorem C4_fifo (s cap : Nat) (mem : ByteMem) (rs : List (List Nat))
    (st0 : so_ring_buffer_t) (h0 : 0 < s) (hall : ∀ r ∈ rs, r.length = s)
    (hcap : rs.length * s ≤ cap)
    (hinit : (ring_buffer_init cap mem true).2 = some st0) :
    (dequeueAll (enqueueAll st0 rs) s rs.length).1 = rs := by
  have hst0 : st0 = so_ring_buffer_t.mk mem 0 0 0 cap false := by
    have h2 := hinit
    simp only [ring_buffer_init, if_pos, Option.some.injEq] at h2
    exact h2.symm
  subst hst0
  obtain ⟨hd, hrp, hl, hc, hst⟩ := enqueueAll_spec s h0 rs
    (so_ring_buffer_t.mk mem 0 0 0 cap false) hall (by simpa using hcap)
  apply dequeueAll_spec s h0 rs _ hall
  · rw [hrp, hc]
    simpa using hcap
  · rw [hrp, hd]
    have hjl : rs.flatten.length = rs.length * s := join_length_of_all s rs hall
    rw [← hjl]
    exact readList_writeList rs.flatten mem 0

/-- Witness for C4: two one-byte records through a fresh two-byte queue come
back in order. -/
theorem C4_fifo_witness :
    (dequeueAll (enqueueAll (so_ring_buffer_t.mk (fun _ => 0) 0 0 0 2 false)
      [[7], [9]]) 1 2).1 = [[7], [9]] :=
  C4_fifo 1 2 (fun _ => 0) [[7], [9]] _ (by decide) (by decide) (by decide) rfl

/-- C5 counterexample: the claim says init allocates a zeroed buffer, but
ring_buffer_init uses malloc (not calloc): with allocator contents 7 at every
byte, the constructed queue's first data byte is 7, not 0. -/
theorem C5_buffer_not_zeroed :
    ((ring_buffer_init 1 (fun _ => 7) true).2.map (fun st => st.data 0))
      = some 7
    ∧ (7 : Nat) ≠ 0 :=
  ⟨rfl, by decide⟩

/-- C5 (amended): init(capacity) allocates a capacity-byte buffer whose
contents are whatever the allocator returned (not zeroed) and on success
leaves len = 0, read_pos = 0, write_pos = 0, stop clear and cap = capacity,
returning 0; it returns -1 exactly when the allocation fails, and then no
queue state is produced at all. -/
theorem C5_init_contract (cap : Nat) (mem : ByteMem) :
    ring_buffer_init cap mem true
      = (0, some (so_ring_buffer_t.mk mem 0 0 0 cap false))
    ∧ ring_buffer_init cap mem false = (-1, none) :=
  ⟨rfl, rfl⟩

/-- C6: on every state — stopped or not — ring_buffer_stop sets the stop
flag and is idempotent (a second call leaves the state unchanged), and once
the flag is set no enqueue, dequeue or further stop ever clears it — over
all states, hence over every reachable one. -/
theorem C6_stop_monotone (st : so_ring_buffer_t) (r : List Nat) (s : Nat) :
    (ring_buffer_stop st).stop = true
    ∧ ring_buffer_stop (ring_buffer_stop st) = ring_buffer_stop st
    ∧ (st.stop = true →
        (ring_buffer_enqueue st r).stop = true
        ∧ ((ring_buffer_dequeue st s).2).stop = true
        ∧ (ring_buffer_stop st).stop = true) :=
  ⟨rfl, rfl, fun h => ⟨h, h, rfl⟩⟩

/-- Witness for C6 at a concrete stopped state, discharging the
monotonicity hypothesis. -/
theorem C6_stop_monotone_witness :
    (ring_buffer_stop (so_ring_buffer_t.mk (fun _ => 0) 0 0 0 1 true)).stop = true
    ∧ ring_buffer_stop (ring_buffer_stop
        (so_ring_buffer_t.mk (fun _ => 0) 0 0 0 1 true))
      = ring_buffer_stop (so_ring_buffer_t.mk (fun _ => 0) 0 0 0 1 true)
    ∧ ((ring_buffer_enqueue (so_ring_buffer_t.mk (fun _ => 0) 0 0 0 1 true)
          [5]).stop = true
        ∧ ((ring_buffer_dequeue (so_ring_buffer_t.mk (fun _ => 0) 0 0 0 1 true)
          1).2).stop = true
        ∧ (ring_buffer_stop
            (so_ring_buffer_t.mk (fun _ => 0) 0 0 0 1 true)).stop = true) :=
  ⟨(C6_stop_monotone (so_ring_buffer_t.mk (fun _ => 0) 0 0 0 1 true) [5] 1).1,
   (C6_stop_monotone (so_ring_buffer_t.mk (fun _ => 0) 0 0 0 1 true) [5] 1).2.1,
   (C6_stop_monotone (so_ring_buffer_t.mk (fun _ => 0) 0 0 0 1 true) [5] 1).2.2 rfl⟩

/-- C1 counterexample: with two records carrying the same timestamp 5
(dequeued in order payload-1 then payload-2), the worker holding the second
record passes the head-wait — consumer.c line 65 compares by timestamp VALUE
(timestamp != ctx->times[0]), not by ticket position — removes the head
ticket and writes first, so the sink receives payload-2 before payload-1:
write order differs from dequeue order on this reachable run. -/
theorem C1_dup_timestamp_reorder :
    PoolReach 2 [so_packet_t.mk 5 1, so_packet_t.mk 5 2]
      (PoolState.mk [] [so_packet_t.mk 5 1] [5] [so_packet_t.mk 5 2]
        [so_packet_t.mk 5 1, so_packet_t.mk 5 2])
    ∧ ¬((PoolState.mk [] [so_packet_t.mk 5 1] [5] [so_packet_t.mk 5 2]
          [so_packet_t.mk 5 1, so_packet_t.mk 5 2]).sink
        = (PoolState.mk [] [so_packet_t.mk 5 1] [5] [so_packet_t.mk 5 2]
            [so_packet_t.mk 5 1, so_packet_t.mk 5 2]).dequeued.take
          (PoolState.mk [] [so_packet_t.mk 5 1] [5] [so_packet_t.mk 5 2]
            [so_packet_t.mk 5 1, so_packet_t.mk 5 2]).sink.length) := by
  constructor
  · exact PoolReach.step _ _
      (PoolReach.step _ _
        (PoolReach.step _ _ PoolReach.init
          (PoolStep.dequeue_register _ (so_packet_t.mk 5 1)
            [so_packet_t.mk 5 2] rfl (by decide)))
        (PoolStep.dequeue_register _ (so_packet_t.mk 5 2) [] rfl (by decide)))
      (PoolStep.write_retire _ 1 (by decide) rfl)
  · decide

/-- C1 (amended): provided the records of the run carry pairwise-distinct
timestamps, in every reachable pool state the sink is exactly the prefix of
the dequeue order already written: result lines reach the sink in dequeue
order regardless of how worker steps interleave (transformation completion
order is the choice of when each worker's write step fires). -/
theorem C1_sink_is_dequeue_prefix (nw : Nat) (all : List so_packet_t)
    (u : PoolState) (hnd : (all.map so_packet_t.hdr_timestamp).Nodup)
    (h : PoolReach nw all u) :
    u.sink = u.dequeued.take u.sink.length := by
  obtain ⟨w, hall, hw, hsink, htimes, hperm⟩ := pool_inv nw all u hnd h
  rw [hsink, List.length_take, Nat.min_eq_left hw]

/-- Witness for C1: distinct timestamps 10 and 20, one dequeue and one write
later the sink [ts 10] is the written prefix of the dequeue order. -/
theorem C1_sink_is_dequeue_prefix_witness :
    (PoolState.mk [so_packet_t.mk 20 2] [] [] [so_packet_t.mk 10 1]
        [so_packet_t.mk 10 1]).sink
      = (PoolState.mk [so_packet_t.mk 20 2] [] [] [so_packet_t.mk 10 1]
          [so_packet_t.mk 10 1]).dequeued.take
        (PoolState.mk [so_packet_t.mk 20 2] [] [] [so_packet_t.mk 10 1]
          [so_packet_t.mk 10 1]).sink.length :=
  C1_sink_is_dequeue_prefix 1 [so_packet_t.mk 10 1, so_packet_t.mk 20 2] _
    (by decide)
    (PoolReach.step _ _
      (PoolReach.step _ _ PoolReach.init
        (PoolStep.dequeue_register _ (so_packet_t.mk 10 1)
          [so_packet_t.mk 20 2] rfl (by decide)))
      (PoolStep.write_retire _ 0 (by decide) rfl))

/-- C7 counterexample: the claim places the ledger removal and the broadcast
after the write, but in consumer_thread's write phase (consumer.c lines
62-80) the head removal (the times shift, lines 69-71) and the broadcast
(line 74) both occur before the write call (line 77). -/
theorem C7_remove_before_write :
    ¬(List.indexOf WriteEvent.write_line write_phase_events
        < List.indexOf WriteEvent.remove_head write_phase_events
      ∧ List.indexOf WriteEvent.write_line write_phase_events
        < List.indexOf WriteEvent.broadcast_cond write_phase_events) := by
  decide

/-- C7 (amended): a ticket is removed only from the head of the ledger, only
by a worker whose record timestamp equals the head value (its own ticket
whenever in-flight timestamps are distinct), in the same atomic file-mutex
critical section that appends the record's line to the sink; within that
critical section the program order is head-wait, removal, broadcast, then
the write, all between lock and unlock. -/
theorem C7_retire_discipline (nw : Nat) (t t' : PoolState)
    (hstep : PoolStep nw t t') (hshrink : t'.times.length < t.times.length) :
    (t.times ≠ [] ∧ t'.times = t.times.tail
      ∧ ∃ j, ∃ hj : j < t.held.length,
          t.times.head? = some ((t.held.get ⟨j, hj⟩).hdr_timestamp)
          ∧ t'.sink = t.sink ++ [t.held.get ⟨j, hj⟩]
          ∧ t'.held = t.held.eraseIdx j)
    ∧ List.indexOf WriteEvent.lock_file_mutex write_phase_events
        < List.indexOf WriteEvent.wait_for_head write_phase_events
    ∧ List.indexOf WriteEvent.wait_for_head write_phase_events
        < List.indexOf WriteEvent.remove_head write_phase_events
    ∧ List.indexOf WriteEvent.remove_head write_phase_events
        < List.indexOf WriteEvent.broadcast_cond write_phase_events
    ∧ List.indexOf WriteEvent.broadcast_cond write_phase_events
        < List.indexOf WriteEvent.write_line write_phase_events
    ∧ List.indexOf WriteEvent.write_line write_phase_events
        < List.indexOf WriteEvent.unlock_file_mutex write_phase_events := by
  refine ⟨?_, by decide, by decide, by decide, by decide, by decide⟩
  cases hstep with
  | dequeue_register p rest hin hnw =>
    exfalso
    have hlen : (t.times ++ [p.hdr_timestamp]).length < t.times.length := hshrink
    rw [List.length_append] at hlen
    omega
  | write_retire j hj hhead =>
    refine ⟨?_, rfl, j, hj, hhead, rfl, rfl⟩
    intro hnil
    rw [hnil] at hhead
    exact Option.noConfusion hhead

/-- Witness for C7 at a concrete retiring step. -/
theorem C7_retire_discipline_witness :
    (PoolState.mk ([] : List so_packet_t) [so_packet_t.mk 5 1] [5] []
        [so_packet_t.mk 5 1]).times ≠ [] :=
  (C7_retire_discipline 1
    (PoolState.mk [] [so_packet_t.mk 5 1] [5] [] [so_packet_t.mk 5 1])
    (PoolState.mk [] [] [] [so_packet_t.mk 5 1] [so_packet_t.mk 5 1])
    (PoolStep.write_retire _ 0 (by decide) rfl)
    (by decide)).1.1

/-- C8: evaluation at the failing input — with the context allocation
succeeding but the ledger array allocation (ctx->times) failing,
create_consumers still returns the success value num_consumers (here 4, not
-1) and hands every thread a context whose times pointer is NULL, because
consumer.c lines 114-115 never check the malloc/calloc results; by contrast
a failing context allocation is checked and propagated as -1. -/
theorem C8_ledger_alloc_unchecked :
    create_consumers 4 true false true true
      = (4, some (ConsumerCtx.mk true false))
    ∧ (4 : Int) ≠ -1
    ∧ create_consumers 4 false true true true = (-1, none) :=
  ⟨rfl, by decide, rfl⟩

/-- C9: the emitted line is byte-exactly the outcome label, a space, the
hash as 16-character zero-padded lowercase hexadecimal, a space, the decimal
timestamp, and a newline — nothing else; the width is exactly 16 because an
unsigned long hash is below 2^64 = 16^16. -/
theorem C9_output_line_format (label : String) (hash timestamp : Nat)
    (hhash : hash < 2 ^ 64) :
    format_out_line label hash timestamp
      = label ++ " " ++ printf_016lx hash ++ " " ++ printf_lu timestamp ++ "\n"
    ∧ (printf_016lx hash).length = 16
    ∧ (∀ c ∈ (printf_016lx hash).data, c ∈ hexCharset)
    ∧ (∀ c ∈ (printf_lu timestamp).data, c ∈ decCharset) :=
  ⟨rfl, printf_016lx_length hash hhash, printf_016lx_chars hash,
    printf_lu_chars timestamp⟩

/-- Witness for C9 at label "PASS", hash 255, timestamp 10. -/
theorem C9_output_line_format_witness :
    format_out_line "PASS" 255 10
      = "PASS" ++ " " ++ printf_016lx 255 ++ " " ++ printf_lu 10 ++ "\n"
    ∧ (printf_016lx 255).length = 16
    ∧ (∀ c ∈ (printf_016lx 255).data, c ∈ hexCharset)
    ∧ (∀ c ∈ (printf_lu 10).data, c ∈ decCharset) :=
  C9_output_line_format "PASS" 255 10 (by decide)

/-- C10 counterexample: the claim's "exactly when the capacity is a positive
multiple of the record size" fails when the capacity cannot hold even one
record: with record size 2 and capacity 1 no enqueue guard ever holds, every
reachable state trivially accesses in bounds, yet 1 is not a multiple of
2. -/
theorem C10_small_cap_vacuous :
    ¬((∀ st, RBReach 2 1 st → accessSafe 2 st) ↔ (0 < 1 ∧ 2 ∣ 1)) := by
  intro hiff
  have hsafe : ∀ st, RBReach 2 1 st → accessSafe 2 st := by
    intro st h
    have hlen : st.len = 0 ∧ st.cap = 1 := by
      induction h with
      | init mem => exact ⟨rfl, rfl⟩
      | enqueue st r hre hr hguard ih =>
        exfalso
        rw [ih.1, ih.2] at hguard
        omega
      | dequeue st hre hne ih => exact absurd ih.1 hne
      | stop st hre ih => simpa [ring_buffer_stop] using ih
    constructor
    · intro hg
      rw [hlen.1, hlen.2] at hg
      omega
    · intro hne
      exact absurd hlen.1 hne
  exact absurd (hiff.mp hsafe).2 (by decide)

/-- C10 (amended): records are copied contiguously without wrapping, so for
capacities that hold at least one record, every reachable state keeps both
cursors' accesses (cursor..cursor+size-1) below cap — equivalently
cursor + size <= cap whenever the operation's guard holds — exactly when the
capacity is a multiple of the record size. -/
theorem C10_contiguous_access_bound (s cap : Nat) (h0 : 0 < s)
    (hs : s ≤ cap) :
    (∀ st, RBReach s cap st → accessSafe s st) ↔ s ∣ cap := by
  constructor
  · intro hsafe
    by_contra hnd
    have hq1 : 1 ≤ cap / s := (Nat.one_le_div_iff h0).mpr hs
    have hqs : cap / s * s ≤ cap := Nat.div_mul_le_self cap s
    obtain ⟨st, hre, hlen, hw, hr0, hc⟩ := rb_reach_filled s cap (cap / s) hqs
    have hlt : cap / s * s < cap := by
      rcases Nat.lt_or_ge (cap / s * s) cap with h | h
      · exact h
      · exfalso
        have heq : cap / s * s = cap := le_antisymm hqs h
        have hdm0 := Nat.div_add_mod cap s
        have hcm0 : s * (cap / s) = cap / s * s := Nat.mul_comm s (cap / s)
        exact hnd (Nat.dvd_of_mod_eq_zero (by omega))
    have hwq : st.write_pos = cap / s * s := by
      rw [hw]
      exact Nat.mod_eq_of_lt hlt
    have hsle : s ≤ cap / s * s := by
      calc s = 1 * s := (one_mul s).symm
        _ ≤ cap / s * s := Nat.mul_le_mul_right s hq1
    have hne : st.len ≠ 0 := by
      rw [hlen]
      omega
    have hre2 := RBReach.dequeue st hre hne
    have hsafe2 := hsafe (ring_buffer_dequeue st s).2 hre2
    have hguard : (ring_buffer_dequeue st s).2.len + s
        ≤ (ring_buffer_dequeue st s).2.cap := by
      show st.len - s + s ≤ st.cap
      rw [hlen, hc]
      omega
    have hviol := hsafe2.1 hguard
    have hwp2 : (ring_buffer_dequeue st s).2.write_pos + s
        ≤ (ring_buffer_dequeue st s).2.cap := hviol
    have hwp3 : cap / s * s + s ≤ cap := by
      show cap / s * s + s ≤ cap
      calc cap / s * s + s = st.write_pos + s := by rw [hwq]
        _ ≤ st.cap := hwp2
        _ = cap := hc
    have hdm := Nat.div_add_mod cap s
    have hmod : cap % s < s := Nat.mod_lt cap h0
    have hcm : s * (cap / s) = cap / s * s := Nat.mul_comm s (cap / s)
    omega
  · intro hdvd st hre
    obtain ⟨hc, hdl, hlen, hcong, hpos⟩ := rb_basic s cap st hre
    obtain ⟨hwal, hral⟩ := rb_aligned s cap st hdvd hre
    have hcap0 : 0 < cap := lt_of_lt_of_le h0 hs
    constructor
    · intro hg
      have hwlt : st.write_pos < cap := (hpos hcap0).1
      have hb := nat_dvd_add_le s st.write_pos cap hwal hdvd hwlt
      rw [hc]
      exact hb
    · intro hne
      have hrlt : st.read_pos < cap := (hpos hcap0).2
      have hb := nat_dvd_add_le s st.read_pos cap hral hdvd hrlt
      rw [hc]
      exact hb

/-- Witness for C10 at record size 1 and capacity 1. -/
theorem C10_contiguous_access_bound_witness :
    ((∀ st, RBReach 1 1 st → accessSafe 1 st) ↔ 1 ∣ 1) :=
  C10_contiguous_access_bound 1 1 (by decide) (by decide)
